import Mathlib

/-!
# Verification of the clarifying-questions MCP server

Shallow embedding of the repository's question extractor
(`src/question-generator.ts`), session store (`src/session-manager.ts`) and
the two answer transports (`src/mcp-server.ts`, `src/http-server.ts`),
with theorems settling the specification claims.

Modelling conventions:
* JavaScript runtime values reachable from `JSON.parse` are modelled by the
  mutual inductives `Json` / `JsonList` / `JsonFields` (lists are unrolled
  into cons cells so that decidable equality is structurally recursive);
  the extra constructor `Json.undefined` models the JavaScript `undefined`
  produced by reading an absent property (never produced by the parser).
* JSON numbers are kept as their source literal (`Json.num lit`); no claim
  compares numeric values, only their truthiness (zero / non-zero) matters.
* `Date` values are modelled as their millisecond value (a `Nat`);
  `toISOString` / `new Date(iso)` round-trip exactly at millisecond
  precision, so serialising a timestamp is modelled as the identity on
  that millisecond value.
* Maps (`Map<string, T>`) are modelled as association lists in insertion
  order with unique keys; `Object.fromEntries` / `Object.entries` are
  modelled including the JavaScript own-property ordering rule (array-index
  keys first, in numeric order, then the remaining keys in insertion
  order).
-/

namespace MCPSpec

mutual

/-- JavaScript values reachable in the extractor: everything `JSON.parse`
can return, plus `undefined` for the result of reading an absent property. -/
inductive Json where
  | undefined
  | null
  | bool (b : Bool)
  | num (lit : String)
  | str (s : String)
  | arr (elems : JsonList)
  | obj (fields : JsonFields)
  deriving DecidableEq, Repr

/-- The elements of a JSON array. -/
inductive JsonList where
  | nil
  | cons (hd : Json) (tl : JsonList)
  deriving DecidableEq, Repr

/-- The fields of a JSON object, in source order (duplicates possible). -/
inductive JsonFields where
  | nil
  | cons (key : String) (val : Json) (tl : JsonFields)
  deriving DecidableEq, Repr

end

/-- Build a `JsonList` from a Lean list. -/
def JsonList.ofList : List Json → JsonList
  | [] => .nil
  | v :: vs => .cons v (JsonList.ofList vs)

/-- View a `JsonList` as a Lean list. -/
def JsonList.toList : JsonList → List Json
  | .nil => []
  | .cons v vs => v :: JsonList.toList vs

/-- Build `JsonFields` from a Lean list of key/value pairs. -/
def JsonFields.ofList : List (String × Json) → JsonFields
  | [] => .nil
  | (k, v) :: fs => .cons k v (JsonFields.ofList fs)

/-- The value of the last field named `key`, mirroring the fact that with
duplicate keys the later `JSON.parse` assignment wins. -/
def JsonFields.getLast? : JsonFields → String → Option Json
  | .nil, _ => none
  | .cons k v tl, key =>
    match JsonFields.getLast? tl key with
    | some r => some r
    | none => if k = key then some v else none

/-- JSON token whitespace (RFC 8259): space, tab, line feed, carriage
return. -/
def jsonWs (c : Char) : Bool :=
  c = ' ' || c = '\t' || c = '\n' || c = '\r'

/-- Skip JSON whitespace. -/
def skipWs (cs : List Char) : List Char :=
  cs.dropWhile jsonWs

/-- Value of a hexadecimal digit. -/
def hexVal (c : Char) : Option Nat :=
  if '0' ≤ c ∧ c ≤ '9' then some (c.toNat - '0'.toNat)
  else if 'a' ≤ c ∧ c ≤ 'f' then some (c.toNat - 'a'.toNat + 10)
  else if 'A' ≤ c ∧ c ≤ 'F' then some (c.toNat - 'A'.toNat + 10)
  else none

/-- Single-character JSON string escapes. -/
def escChar (c : Char) : Option Char :=
  if c = '"' then some '"'
  else if c = '\\' then some '\\'
  else if c = '/' then some '/'
  else if c = 'b' then some '\x08'
  else if c = 'f' then some '\x0c'
  else if c = 'n' then some '\n'
  else if c = 'r' then some '\r'
  else if c = 't' then some '\t'
  else none

/-- Parse the body of a JSON string after the opening quote, accumulating
decoded characters; returns the string and the input after the closing
quote.  Raw control characters are rejected, as `JSON.parse` does. -/
def parseStringBody : Nat → List Char → List Char → Option (String × List Char)
  | 0, _, _ => none
  | _, [], _ => none
  | fuel + 1, c :: rest, acc =>
    if c = '"' then some (String.mk acc.reverse, rest)
    else if c = '\\' then
      match rest with
      | [] => none
      | e :: rest2 =>
        if e = 'u' then
          match rest2 with
          | a :: b :: c2 :: d :: rest3 =>
            match hexVal a, hexVal b, hexVal c2, hexVal d with
            | some ha, some hb, some hc, some hd =>
              parseStringBody fuel rest3
                (Char.ofNat (((ha * 16 + hb) * 16 + hc) * 16 + hd) :: acc)
            | _, _, _, _ => none
          | _ => none
        else
          match escChar e with
          | some ec => parseStringBody fuel rest2 (ec :: acc)
          | none => none
    else if c.toNat < 32 then none
    else parseStringBody fuel rest (c :: acc)

/-- Split off a maximal run of decimal digits. -/
def takeDigits (cs : List Char) : List Char × List Char :=
  (cs.takeWhile Char.isDigit, cs.dropWhile Char.isDigit)

/-- Optional fraction part: `.` followed by at least one digit. -/
def parseFrac : List Char → Option (List Char × List Char)
  | '.' :: r =>
    let (ds, r2) := takeDigits r
    if ds = [] then none else some ('.' :: ds, r2)
  | cs => some ([], cs)

/-- Optional exponent part: `e`/`E`, optional sign, at least one digit. -/
def parseExp : List Char → Option (List Char × List Char)
  | e :: r =>
    if e = 'e' ∨ e = 'E' then
      let (sgn, r1) := match r with
        | '+' :: r' => ((['+'] : List Char), r')
        | '-' :: r' => ((['-'] : List Char), r')
        | _ => (([] : List Char), r)
      let (ds, r2) := takeDigits r1
      if ds = [] then none else some (e :: (sgn ++ ds), r2)
    else some ([], e :: r)
  | [] => some ([], [])

/-- Parse a JSON number token, returning its literal text (leading zeros
are rejected, as in the JSON grammar). -/
def parseNumber (cs : List Char) : Option (String × List Char) :=
  let (neg, cs1) := match cs with
    | '-' :: r => ((['-'] : List Char), r)
    | _ => (([] : List Char), cs)
  match cs1 with
  | [] => none
  | c :: rest =>
    let intPart? : Option (List Char × List Char) :=
      if c = '0' then some (['0'], rest)
      else if c.isDigit then
        let (ds, r) := takeDigits rest
        some (c :: ds, r)
      else none
    match intPart? with
    | none => none
    | some (ip, r1) =>
      match parseFrac r1 with
      | none => none
      | some (fp, r2) =>
        match parseExp r2 with
        | none => none
        | some (ep, r3) => some (String.mk (neg ++ ip ++ fp ++ ep), r3)

/-- Check that the input starts with the given literal characters and drop
them. -/
def dropLit : List Char → List Char → Option (List Char)
  | [], cs => some cs
  | _, [] => none
  | p :: ps, c :: cs => if p = c then dropLit ps cs else none

mutual

/-- Parse one JSON value (fuel-indexed recursive descent mirroring the
grammar `JSON.parse` accepts). -/
def parseValue : Nat → List Char → Option (Json × List Char)
  | 0, _ => none
  | fuel + 1, cs =>
    match skipWs cs with
    | [] => none
    | c :: rest =>
      if c = '"' then
        match parseStringBody (rest.length + 1) rest [] with
        | some (s, r) => some (Json.str s, r)
        | none => none
      else if c = '[' then
        match skipWs rest with
        | ']' :: r2 => some (Json.arr .nil, r2)
        | r1 =>
          match parseArrayItems fuel r1 with
          | some (vs, r2) => some (Json.arr vs, r2)
          | none => none
      else if c = '{' then
        match skipWs rest with
        | '}' :: r2 => some (Json.obj .nil, r2)
        | r1 =>
          match parseObjMembers fuel r1 with
          | some (ms, r2) => some (Json.obj ms, r2)
          | none => none
      else if c = 't' then
        match dropLit ['r', 'u', 'e'] rest with
        | some r => some (Json.bool true, r)
        | none => none
      else if c = 'f' then
        match dropLit ['a', 'l', 's', 'e'] rest with
        | some r => some (Json.bool false, r)
        | none => none
      else if c = 'n' then
        match dropLit ['u', 'l', 'l'] rest with
        | some r => some (Json.null, r)
        | none => none
      else
        match parseNumber (c :: rest) with
        | some (lit, r) => some (Json.num lit, r)
        | none => none

/-- Parse the items of a non-empty JSON array (after `[`). -/
def parseArrayItems : Nat → List Char → Option (JsonList × List Char)
  | 0, _ => none
  | fuel + 1, cs =>
    match parseValue fuel cs with
    | none => none
    | some (v, r) =>
      match skipWs r with
      | ',' :: r2 =>
        match parseArrayItems fuel r2 with
        | some (vs, r3) => some (JsonList.cons v vs, r3)
        | none => none
      | ']' :: r2 => some (JsonList.cons v .nil, r2)
      | _ => none

/-- Parse the members of a non-empty JSON object (after `{`). -/
def parseObjMembers : Nat → List Char → Option (JsonFields × List Char)
  | 0, _ => none
  | fuel + 1, cs =>
    match skipWs cs with
    | '"' :: r =>
      match parseStringBody (r.length + 1) r [] with
      | none => none
      | some (k, r1) =>
        match skipWs r1 with
        | ':' :: r2 =>
          match parseValue fuel r2 with
          | none => none
          | some (v, r3) =>
            match skipWs r3 with
            | ',' :: r4 =>
              match parseObjMembers fuel r4 with
              | some (ms, r5) => some (JsonFields.cons k v ms, r5)
              | none => none
            | '}' :: r4 => some (JsonFields.cons k v .nil, r4)
            | _ => none
        | _ => none
    | _ => none

end

/-- `JSON.parse`: parse one value and require only whitespace after it
(fuel `2·|s| + 2` is ample: every recursive step consumes input). -/
def jsonParse (s : String) : Option Json :=
  let cs := s.toList
  match parseValue (2 * cs.length + 2) cs with
  | some (v, r) => if skipWs r = [] then some v else none
  | none => none

/-!
## The question extractor (`QuestionGenerator` in `src/question-generator.ts`)
-/

/-- Whitespace removed by JavaScript `String.prototype.trim`. -/
def jsWsChar (c : Char) : Bool :=
  c = ' ' || c = '\t' || c = '\n' || c = '\r' || c = '\x0b' || c = '\x0c' || c = '\xa0'

/-- `jsonText.trim()`. -/
def jsTrim (s : String) : String :=
  String.mk (((s.toList.dropWhile jsWsChar).reverse.dropWhile jsWsChar).reverse)

/-- `cleaned.match(/\x7b[\s\S]*\x7d/)`: the regex is greedy, so the (unique)
match runs from the first `\x7b` of the text to the last `\x7d`, provided the
former precedes the latter; otherwise there is no match. -/
def jsonMatch (s : String) : Option String :=
  match s.toList.findIdx? (fun c => c == '{'),
      s.toList.reverse.findIdx? (fun c => c == '}') with
  | some i, some rj =>
    if i < s.toList.length - 1 - rj then
      some (String.mk ((s.toList.drop i).take (s.toList.length - 1 - rj - i + 1)))
    else none
  | _, _ => none

/-- Is the mathematical value of a JSON number literal zero?  (All mantissa
digits are `0`; the exponent is irrelevant.) -/
def jsNumLitIsZero (lit : String) : Bool :=
  (lit.toList.takeWhile (fun c => c != 'e' && c != 'E')).all
    (fun c => !c.isDigit || c == '0')

/-- JavaScript truthiness of a runtime value. -/
def jsTruthy : Json → Bool
  | .undefined => false
  | .null => false
  | .bool b => b
  | .num lit => !jsNumLitIsZero lit
  | .str s => s != ""
  | .arr _ => true
  | .obj _ => true

/-- JavaScript property read `v[k]`: `none` models the `TypeError` thrown
when `v` is `null`/`undefined`; on an object the last field named `k` wins
(`JSON.parse` duplicate-key semantics); on other values and absent fields
the result is `undefined`. -/
def getProp? (v : Json) (k : String) : Option Json :=
  match v with
  | .null => none
  | .undefined => none
  | .obj fs => some ((fs.getLast? k).getD .undefined)
  | _ => some .undefined

/-- A question record exactly as `parseQuestions` builds it at runtime: the
fields hold whatever values the decoded entry supplied (the TypeScript
`Question` interface declares narrower types, but nothing checks them). -/
structure QuestionR where
  id : Json
  text : Json
  category : Json
  options : Json
  deriving DecidableEq, Repr

/-- One question entry of the envelope, from the mapper
`(q, index) => (\x7b id: q.id || `q${index+1}`, text: q.text,
category: q.category || 'other', options: q.options || [] \x7d)`;
`none` models the `TypeError` when the entry is `null`. -/
def decodeEntry (i : Nat) (q : Json) : Option QuestionR := do
  let idv ← getProp? q "id"
  let textv ← getProp? q "text"
  let catv ← getProp? q "category"
  let optv ← getProp? q "options"
  pure { id := if jsTruthy idv then idv else .str ("q" ++ toString (i + 1))
         text := textv
         category := if jsTruthy catv then catv else .str "other"
         options := if jsTruthy optv then optv else .arr .nil }

/-- `parsed.questions.map(...)` with 0-based index, failing if any entry
throws. -/
def mapEntries : Nat → JsonList → Option (List QuestionR)
  | _, .nil => some []
  | i, .cons q rest => do
    let r ← decodeEntry i q
    let rs ← mapEntries (i + 1) rest
    pure (r :: rs)

/-- Shorthand for a JSON array of strings. -/
def strs (l : List String) : Json :=
  Json.arr (JsonList.ofList (l.map Json.str))

/-- `getFallbackQuestions()`: the fixed five-question fallback set. -/
def getFallbackQuestions : List QuestionR :=
  [ { id := .str "q1"
      text := .str "What is the primary technology stack?"
      category := .str "tech_stack"
      options := strs ["JavaScript/Node.js", "Python", "Java", "Go", "Other"] },
    { id := .str "q2"
      text := .str "What type of application is this?"
      category := .str "architecture"
      options := strs ["Web application", "Mobile app", "API/Backend service",
        "Desktop application", "CLI tool"] },
    { id := .str "q3"
      text := .str "What is the deployment target?"
      category := .str "deployment"
      options := strs ["Cloud (AWS/GCP/Azure)", "Vercel/Netlify",
        "Docker/Kubernetes", "On-premises", "Local development only"] },
    { id := .str "q4"
      text := .str "Does this require a database?"
      category := .str "features"
      options := strs ["Yes, SQL (PostgreSQL/MySQL)", "Yes, NoSQL (MongoDB/DynamoDB)",
        "Yes, both", "No", "Not sure"] },
    { id := .str "q5"
      text := .str "What is the project scope?"
      category := .str "scope"
      options := strs ["Quick prototype/MVP", "Production-ready application",
        "Enterprise-grade system", "Personal project", "Learning/experimental"] } ]

/-- The body of `parseQuestions`'s `try` block (the spec's `extract`):
trim, locate the regex match, `JSON.parse` it, require an array-shaped
`questions` field, and map the entries; `none` models every thrown error. -/
def extractQuestions (text : String) : Option (List QuestionR) := do
  let cleaned := jsTrim text
  let span ← jsonMatch cleaned
  let parsed ← jsonParse span
  let qv ← getProp? parsed "questions"
  match qv with
  | .arr qs => mapEntries 0 qs
  | _ => none

/-- `parseQuestions`: the `catch` substitutes the fallback set for any
failure of the `try` body (the spec's `extractWithFallback`). -/
def parseQuestions (text : String) : List QuestionR :=
  (extractQuestions text).getD getFallbackQuestions

/-- `tryParsePartialQuestions`: its `try`/`catch` is dead code, because
`parseQuestions` already catches internally and never throws. -/
def tryParsePartialQuestions (text : String) : List QuestionR :=
  parseQuestions text

/-- Modelled from the spec: "locate the first balanced top-level
structured-object span in the text (from the first opening marker to its
matching closing marker); if none exists, signal extraction-failure."
Scans from the first opening brace, tracking nesting depth. -/
def balancedLen (depth n : Nat) : List Char → Option Nat
  | [] => none
  | c :: rest =>
    if c = '{' then balancedLen (depth + 1) (n + 1) rest
    else if c = '}' then
      if depth = 1 then some (n + 1) else balancedLen (depth - 1) (n + 1) rest
    else balancedLen depth (n + 1) rest

/-- Modelled from the spec: the first balanced top-level object span. -/
def firstBalancedSpan (s : String) : Option String :=
  let cs := s.toList
  match cs.findIdx? (fun c => c == '{') with
  | none => none
  | some i =>
    match balancedLen 0 0 (cs.drop i) with
    | none => none
    | some len => some (String.mk ((cs.drop i).take len))

/-!
## The session store (`SessionManager` in `src/session-manager.ts`)

`Map<string, T>` is an association list in insertion order with unique
keys; `Map.set` overwrites in place or appends; `Map.get` finds the key.
-/

/-- `Map.get`. -/
def alGet {α : Type} (m : List (String × α)) (k : String) : Option α :=
  (m.find? (fun p => p.1 == k)).map Prod.snd

/-- `Map.set`: overwrite in place if the key is present, else append. -/
def alSet {α : Type} (m : List (String × α)) (k : String) (v : α) : List (String × α) :=
  if m.any (fun p => p.1 == k) then m.map (fun p => if p.1 == k then (k, v) else p)
  else m ++ [(k, v)]

/-- `Map.delete` / file unlink: drop every entry with the key. -/
def alRemove {α : Type} (m : List (String × α)) (k : String) : List (String × α) :=
  m.filter (fun p => p.1 != k)

/-- A question as typed in `src/types.ts` (the store only ever reads
`id`). -/
structure Question where
  id : String
  text : String
  options : List String
  category : String
  deriving DecidableEq, Repr

/-- A live `Session` record: timestamps are `Date` millisecond values,
`responses` is the answer `Map` in insertion order. -/
structure Session where
  sessionId : String
  taskDescription : String
  questions : List Question
  responses : List (String × String)
  createdAt : Nat
  lastUpdated : Nat
  deriving DecidableEq, Repr

/-- The JSON file `saveSession` writes: the same record with `responses`
flattened by `Object.fromEntries` (so in JavaScript own-property order)
and the timestamps as their ISO strings, which denote the same
millisecond values. -/
structure SessionFile where
  sessionId : String
  taskDescription : String
  questions : List Question
  responses : List (String × String)
  createdAt : Nat
  lastUpdated : Nat
  deriving DecidableEq, Repr

/-- Numeric value of a digit string. -/
def digitsVal (cs : List Char) : Nat :=
  cs.foldl (fun a c => a * 10 + (c.toNat - '0'.toNat)) 0

/-- Is `s` a canonical array-index property key (all digits, no leading
zero unless `"0"`, value below `2^32 - 1`)?  Such keys come first, in
numeric order, among a JavaScript object's own properties. -/
def isArrayIndex (s : String) : Bool :=
  let cs := s.toList
  !cs.isEmpty && cs.all Char.isDigit &&
    (cs.length == 1 || cs.head? != some '0') &&
    digitsVal cs < 4294967295

/-- Stable insertion (by ascending numeric key value) for the array-index
part of a property list. -/
def insertByIdx (v : String × String) : List (String × String) → List (String × String)
  | [] => [v]
  | w :: ws =>
    if digitsVal v.1.toList ≤ digitsVal w.1.toList then v :: w :: ws
    else w :: insertByIdx v ws

/-- Insertion sort by ascending numeric key value. -/
def sortByIdx : List (String × String) → List (String × String)
  | [] => []
  | v :: vs => insertByIdx v (sortByIdx vs)

/-- `Object.fromEntries` followed by `Object.entries`: array-index keys
first in ascending numeric order, then the remaining keys in insertion
order. -/
def jsObjectOrder (m : List (String × String)) : List (String × String) :=
  sortByIdx (m.filter (fun p => isArrayIndex p.1))
    ++ m.filter (fun p => !isArrayIndex p.1)

/-- The serialised record `saveSession` writes for a session. -/
def sessionToFile (s : Session) : SessionFile :=
  { sessionId := s.sessionId
    taskDescription := s.taskDescription
    questions := s.questions
    responses := jsObjectOrder s.responses
    createdAt := s.createdAt
    lastUpdated := s.lastUpdated }

/-- The `Session` that `loadSessions` reconstructs from a file:
`new Map(Object.entries(data.responses || \x7b\x7d))` keeps the stored
entries, `new Date(iso)` recovers the same millisecond values. -/
def sessionOfFile (f : SessionFile) : Session :=
  { sessionId := f.sessionId
    taskDescription := f.taskDescription
    questions := f.questions
    responses := f.responses
    createdAt := f.createdAt
    lastUpdated := f.lastUpdated }

/-- The store's state: the in-memory session map and the persistence
directory (file name ↦ decoded content). -/
structure Store where
  sessions : List (String × Session)
  files : List (String × SessionFile)
  deriving DecidableEq, Repr

/-- `join(this.sessionsDir, sessionId + ".json")`. -/
def fileName (sid : String) : String := sid ++ ".json"

/-- `saveSession`: whole-file overwrite of the session's own file. -/
def saveSession (files : List (String × SessionFile)) (s : Session) :
    List (String × SessionFile) :=
  alSet files (fileName s.sessionId) (sessionToFile s)

/-- `createSession` (the fresh id and the `new Date()` tick are passed in
explicitly). -/
def createSession (st : Store) (sid task : String) (qs : List Question) (now : Nat) :
    Session × Store :=
  let s : Session :=
    { sessionId := sid, taskDescription := task, questions := qs
      responses := [], createdAt := now, lastUpdated := now }
  (s, { sessions := alSet st.sessions sid s, files := saveSession st.files s })

/-- `getSession`. -/
def getSession (st : Store) (sid : String) : Option Session :=
  alGet st.sessions sid

/-- `addResponse`: `false` (not-found) if the session id or the question
id does not resolve; on success overwrite the answer, bump
`lastUpdated`, persist. -/
def addResponse (st : Store) (sid qid answer : String) (now : Nat) : Bool × Store :=
  match alGet st.sessions sid with
  | none => (false, st)
  | some s =>
    match s.questions.find? (fun q => q.id == qid) with
    | none => (false, st)
    | some _ =>
      let s' := { s with responses := alSet s.responses qid answer, lastUpdated := now }
      (true, { sessions := alSet st.sessions sid s', files := saveSession st.files s' })

/-- The `TaskContext` projection (`responses` is the flat object, in
JavaScript own-property order; timestamps are the ISO instants as
millisecond values). -/
structure TaskContext where
  sessionId : String
  taskDescription : String
  questions : List Question
  responses : List (String × String)
  createdAt : Nat
  lastUpdated : Nat
  deriving DecidableEq, Repr

/-- Project one session to its `TaskContext`. -/
def contextOf (s : Session) : TaskContext :=
  { sessionId := s.sessionId
    taskDescription := s.taskDescription
    questions := s.questions
    responses := jsObjectOrder s.responses
    createdAt := s.createdAt
    lastUpdated := s.lastUpdated }

/-- `getTaskContext`. -/
def getTaskContext (st : Store) (sid : String) : Option TaskContext :=
  (alGet st.sessions sid).map contextOf

/-- `getAllSessions`. -/
def getAllSessions (st : Store) : List TaskContext :=
  st.sessions.map (fun p => contextOf p.2)

/-- The session ids evicted by one sweep tick. -/
def expiredKeys (st : Store) (now timeout : Nat) : List String :=
  (st.sessions.filter (fun p => decide (timeout < now - p.2.lastUpdated))).map Prod.fst

/-- One tick of `startCleanupInterval`: every session with
`now - lastUpdated > sessionTimeout` is deleted from the map and its file
unlinked (unlink errors are swallowed by `.catch(() => \x7b\x7d)`).  The
`Nat` truncated subtraction agrees with the JavaScript float subtraction
here: a negative difference and a zero one both fail the `>` test. -/
def cleanupTick (st : Store) (now timeout : Nat) : Store :=
  { sessions := st.sessions.filter (fun p => !decide (timeout < now - p.2.lastUpdated))
    files := (expiredKeys st now timeout).foldl
      (fun fs sid => alRemove fs (fileName sid)) st.files }

/-- `file.endsWith(".json")`. -/
def strEndsWith (s suffix : String) : Bool :=
  suffix.toList.isSuffixOf s.toList

/-- `loadSessions`: read every `.json` file in the directory, rebuild the
session, and insert it keyed by the sessionId stored in the file. -/
def loadSessions (files : List (String × SessionFile)) : List (String × Session) :=
  files.foldl
    (fun acc f =>
      if strEndsWith f.1 ".json" then
        let s := sessionOfFile f.2
        alSet acc s.sessionId s
      else acc)
    []

/-- The store as constructed at process start from the persisted files. -/
def startupStore (files : List (String × SessionFile)) : Store :=
  { sessions := loadSessions files, files := files }

/-!
## The two answer transports
(`handleAnswerQuestion` in `src/mcp-server.ts`, `POST /api/answer` in
`src/http-server.ts`)
-/

/-- Round-to-nearest, ties-to-even, of the rational `n / d` (for `d > 0`):
the rounding every IEEE-754 binary64 operation applies. -/
def rndNE (n d : Nat) : Nat :=
  let q := n / d
  let r := n % d
  if 2 * r < d then q
  else if d < 2 * r then q + 1
  else if q % 2 = 0 then q else q + 1

/-- Fuelled floor-log₂ (structurally recursive, so it reduces in the
kernel); with `fuel ≥ n` it computes `⌊log₂ n⌋` for `n ≥ 1`. -/
def log2F : Nat → Nat → Nat
  | 0, _ => 0
  | fuel + 1, n => if 2 ≤ n then log2F fuel (n / 2) + 1 else 0

/-- `⌊log₂ n⌋` for `n ≥ 1` (0 at 0). -/
def natLog2 (n : Nat) : Nat := log2F n n

/-- Is `2 ^ e ≤ a / t`? -/
def pow2LE (a t : Nat) : Int → Bool
  | Int.ofNat k => t * 2 ^ k ≤ a
  | Int.negSucc k => t ≤ a * 2 ^ (k + 1)

/-- binary64 rounding of the quotient `a / t` (`a ≥ 1`, `t ≥ 1`; the
values reachable here are far from the subnormal and overflow ranges):
the 53-bit mantissa `m ∈ [2^52, 2^53]` and exponent of the nearest
double, whose exact value is `m · 2 ^ exponent`. -/
def flQuot (a t : Nat) : Nat × Int :=
  let L : Int := (natLog2 a : Int) - (natLog2 t : Int)
  let e : Int := if pow2LE a t L then L else L - 1
  let m : Nat :=
    match 52 - e with
    | Int.ofNat k => rndNE (a * 2 ^ k) t
    | Int.negSucc k => rndNE a (t * 2 ^ (k + 1))
  (m, e - 52)

/-- binary64 rounding of the dyadic value `M · 2 ^ E` (`M ≥ 1`): renormalise
the mantissa to at most 53 bits, ties to even. -/
def flNorm (M : Nat) (E : Int) : Nat × Int :=
  let b := natLog2 M
  if b ≤ 52 then (M, E)
  else (rndNE M (2 ^ (b - 52)), E + (b - 52))

/-- ECMAScript `Math.round` of the nonnegative dyadic `M · 2 ^ E`: the
nearest integer to its exact value, ties toward `+∞`. -/
def roundHalfUpDyadic (M : Nat) (E : Int) : Nat :=
  match E with
  | Int.ofNat k => M * 2 ^ k
  | Int.negSucc k =>
    let d := 2 ^ (k + 1)
    if d ≤ 2 * (M % d) then M / d + 1 else M / d

/-- `Math.round((answered / total) * 100)` exactly as the program computes
it: the division and the multiplication each round to the nearest binary64
double (ties to even), then `Math.round` takes the nearest integer to the
exact value of the resulting double (ties toward `+∞`).  For `a = 0` the
result is 0; for `t = 0` the program produces `Infinity`/`NaN` (serialised
as `null`), which no claim reaches — the model returns 0 there. -/
def jsRound100 (a t : Nat) : Nat :=
  if a = 0 ∨ t = 0 then 0
  else
    let q := flQuot a t
    let p := flNorm (100 * q.1) q.2
    roundHalfUpDyadic p.1 p.2

/-- Exact round-half-up of `100 · a / t`: the idealised rounding the
double computation approximates (and, at some reachable inputs, misses). -/
def exactRound100 (a t : Nat) : Nat :=
  (200 * a + t) / (2 * t)

/-- Outcome of `POST /api/answer`. -/
inductive HttpAnswerResult where
  | badRequest
  | notFound
  | ok (answered total percentage : Nat) (complete : Bool)
  deriving DecidableEq, Repr

/-- `POST /api/answer`: reject any falsy field (for string fields: the
empty string) with 400, then delegate to `addResponse`; on success report
progress from the fresh context (the `none` context branch is unreachable:
a successful write guarantees the session exists, which the code asserts
with `context!`). -/
def apiAnswer (st : Store) (sid qid answer : String) (now : Nat) :
    HttpAnswerResult × Store :=
  if sid == "" || qid == "" || answer == "" then (.badRequest, st)
  else
    match addResponse st sid qid answer now with
    | (true, st') =>
      match getTaskContext st' sid with
      | some ctx =>
        (.ok ctx.responses.length ctx.questions.length
          (jsRound100 ctx.responses.length ctx.questions.length)
          (ctx.responses.length == ctx.questions.length), st')
      | none => (.notFound, st')
    | (false, st') => (.notFound, st')

/-- `GET /api/context/:sessionId` response (context plus progress). -/
structure ContextPayload where
  context : TaskContext
  answered : Nat
  total : Nat
  percentage : Nat
  deriving DecidableEq, Repr

/-- `GET /api/context/:sessionId`. -/
def apiContext (st : Store) (sid : String) : Option ContextPayload :=
  (getTaskContext st sid).map (fun ctx =>
    { context := ctx
      answered := ctx.responses.length
      total := ctx.questions.length
      percentage := jsRound100 ctx.responses.length ctx.questions.length })

/-- One entry of the `GET /api/sessions` response. -/
structure SessionSummary where
  sessionId : String
  taskDescription : String
  questionsTotal : Nat
  questionsAnswered : Nat
  percentComplete : Nat
  createdAt : Nat
  lastUpdated : Nat
  deriving DecidableEq, Repr

/-- `GET /api/sessions`. -/
def apiSessions (st : Store) : List SessionSummary :=
  (getAllSessions st).map (fun ctx =>
    { sessionId := ctx.sessionId
      taskDescription := ctx.taskDescription
      questionsTotal := ctx.questions.length
      questionsAnswered := ctx.responses.length
      percentComplete := jsRound100 ctx.responses.length ctx.questions.length
      createdAt := ctx.createdAt
      lastUpdated := ctx.lastUpdated })

/-- The MCP tool `answer_question`: no field validation; `addResponse`
failure becomes a thrown error, surfaced as an `isError` payload by the
tool-call wrapper.  The `Bool` is acceptance. -/
def handleAnswerQuestion (st : Store) (sid qid answer : String) (now : Nat) :
    Bool × Store :=
  addResponse st sid qid answer now

/-!
## The streaming endpoint's per-id deduplication
(`GET /api/stream` in `src/http-server.ts`)
-/

/-- One step of the stream loop: a question is pushed (and emitted as an
event) only if no already-kept question has the same id.  Ids produced by
the extractor are primitive values, on which JavaScript `===` agrees with
structural equality. -/
def dedupStep (qs : List QuestionR) (q : QuestionR) : List QuestionR :=
  if qs.any (fun p => p.id == q.id) then qs else qs ++ [q]

/-- The questions the stream emits, given the concatenation of all
extractor yields in order. -/
def emittedQuestions (stream : List QuestionR) : List QuestionR :=
  stream.foldl dedupStep []

/-- The seven categories of the closed enumeration in `src/types.ts`. -/
def validCategories : List String :=
  ["tech_stack", "scope", "architecture", "features", "deployment",
   "integrations", "other"]

/-- `isOk` of an HTTP answer outcome: was the request accepted? -/
def HttpAnswerResult.isOk : HttpAnswerResult → Bool
  | .ok _ _ _ _ => true
  | _ => false

/-- The write-time invariant of §3: every answer key is the id of a
question of the same session. -/
def sessionInv (s : Session) : Prop :=
  ∀ k ∈ s.responses.map Prod.fst, k ∈ s.questions.map Question.id

/-- The same invariant, on a persisted session file. -/
def fileInv (f : SessionFile) : Prop :=
  ∀ k ∈ f.responses.map Prod.fst, k ∈ f.questions.map Question.id

/-- The invariant over the whole in-memory store. -/
def storeInv (st : Store) : Prop :=
  ∀ p ∈ st.sessions, sessionInv p.2

instance (s : Session) : Decidable (sessionInv s) :=
  decidable_of_iff (∀ k ∈ s.responses.map Prod.fst, k ∈ s.questions.map Question.id)
    Iff.rfl

instance (f : SessionFile) : Decidable (fileInv f) :=
  decidable_of_iff (∀ k ∈ f.responses.map Prod.fst, k ∈ f.questions.map Question.id)
    Iff.rfl

instance (st : Store) : Decidable (storeInv st) :=
  decidable_of_iff (∀ p ∈ st.sessions, sessionInv p.2) Iff.rfl

/-!
### Fixtures used by the witnesses and counterexamples
-/

/-- C1 counterexample input: a well-formed envelope whose `questions`
array is empty. -/
def emptyEnvelope : String := "\x7b\"questions\": []\x7d"

/-- C2 failing input: an envelope entry whose `category` is a non-empty
string outside the closed enumeration. -/
def invalidCategoryEnvelope : String :=
  "\x7b\"questions\":[\x7b\"id\":\"a\",\"text\":\"t\",\"category\":\"banana\"\x7d]\x7d"

/-- C9 fixture: a well-formed envelope holding one question. -/
def goodEnvelope : String := "\x7b\"questions\":[\x7b\"id\":\"a\",\"text\":\"t\"\x7d]\x7d"

/-- Concrete fixtures for the store witnesses. -/
def sessionW : Session :=
  { sessionId := "s1"
    taskDescription := "build a chat app"
    questions :=
      [ { id := "q1", text := "What frontend framework should be used?",
          options := ["React", "Vue"], category := "tech_stack" },
        { id := "q2", text := "Do you need a backend?",
          options := [], category := "architecture" },
        { id := "q3", text := "Where is it deployed?",
          options := [], category := "deployment" } ]
    responses := [("q1", "React"), ("q2", "Node")]
    createdAt := 0
    lastUpdated := 10 }

/-- A one-session store whose file mirrors the in-memory session. -/
def storeW : Store :=
  { sessions := [("s1", sessionW)], files := [("s1.json", sessionToFile sessionW)] }

/-- `sessionW` after answering `q3` at time 99. -/
def sessionW3 : Session :=
  { sessionW with responses := alSet sessionW.responses "q3" "Docker", lastUpdated := 99 }

/-- `sessionW` with only one of its three questions answered. -/
def sessionW1 : Session := { sessionW with responses := [("q1", "React")] }

/-- A store ready to receive a second answer. -/
def storeW1 : Store :=
  { sessions := [("s1", sessionW1)], files := [("s1.json", sessionToFile sessionW1)] }

/-!
## Theorems settling the claims
-/

theorem extractQuestions_empty : extractQuestions emptyEnvelope = some [] := by
  decide

/-- **C1, counterexample.**  On the input `\x7b"questions": []\x7d` the
extractor returns the empty question list: the decode succeeds, so the
fallback is not substituted, and the caller receives zero questions —
refuting "callers always receive at least one question". -/
theorem parseQuestions_can_be_empty : parseQuestions emptyEnvelope = [] := by
  decide

/-- **C1, amended.**  `parseQuestions` returns the decoded entries when
extraction succeeds and the fixed five-question fallback when it fails;
the result is empty only in the one case where the envelope decodes
successfully with an empty `questions` array. -/
theorem parseQuestions_nonempty_unless_empty_envelope :
    (∀ text, extractQuestions text = none →
      parseQuestions text = getFallbackQuestions) ∧
    getFallbackQuestions.length = 5 ∧
    (∀ text qs, extractQuestions text = some qs → parseQuestions text = qs) ∧
    (∀ text, parseQuestions text = [] → extractQuestions text = some []) := by
  refine ⟨fun text h => ?_, by decide, fun text qs h => ?_, fun text h => ?_⟩
  · simp [parseQuestions, h]
  · simp [parseQuestions, h]
  · unfold parseQuestions at h
    cases hx : extractQuestions text with
    | none =>
      rw [hx] at h
      exact absurd h (by decide)
    | some qs =>
      rw [hx] at h
      simp only [Option.getD_some] at h
      exact congrArg some h

theorem parseQuestions_nonempty_unless_empty_envelope_witness :
    parseQuestions "no json here" = getFallbackQuestions ∧
    extractQuestions emptyEnvelope = some [] :=
  ⟨parseQuestions_nonempty_unless_empty_envelope.1 "no json here" (by decide),
   parseQuestions_nonempty_unless_empty_envelope.2.2.2 emptyEnvelope (by decide)⟩

/-- **C2 (code bug).**  `q.category || 'other'` only substitutes `other`
for a *falsy* category; the truthy string `"banana"`, which is not one of
the seven enumeration values, is passed through unchanged, violating the
closed union declared for `Question.category` in `src/types.ts`. -/
theorem category_not_validated :
    (parseQuestions invalidCategoryEnvelope).map QuestionR.category
        = [Json.str "banana"] ∧
    validCategories.all (fun c => c != "banana") = true := by
  decide

/-- Anything surviving the dedup fold either was already kept or carries
an id that was not yet among the kept ids. -/
theorem mem_foldl_dedupStep :
    ∀ (rest acc : List QuestionR) (x : QuestionR),
      x ∈ rest.foldl dedupStep acc → x ∈ acc ∨ x.id ∉ acc.map QuestionR.id := by
  intro rest
  induction rest with
  | nil => intro acc x h; exact Or.inl h
  | cons r rs ih =>
    intro acc x h
    simp only [List.foldl_cons] at h
    rcases ih (dedupStep acc r) x h with h1 | h1
    · unfold dedupStep at h1
      by_cases hc : acc.any (fun p => p.id == r.id)
      · rw [if_pos hc] at h1; exact Or.inl h1
      · rw [if_neg hc] at h1
        rcases List.mem_append.mp h1 with h2 | h2
        · exact Or.inl h2
        · have hx : x = r := by simpa using h2
          subst hx
          refine Or.inr fun hmem => ?_
          rcases List.mem_map.mp hmem with ⟨p, hp, hpe⟩
          exact hc (List.any_eq_true.mpr ⟨p, hp, by simp [hpe]⟩)
    · refine Or.inr fun hmem => h1 ?_
      unfold dedupStep
      by_cases hc : acc.any (fun p => p.id == r.id)
      · rw [if_pos hc]; exact hmem
      · rw [if_neg hc]
        rcases List.mem_map.mp hmem with ⟨p, hp, hpe⟩
        exact List.mem_map.mpr ⟨p, List.mem_append_left _ hp, hpe⟩

/-- **C10.**  A buffer on which extraction fails makes
`tryParsePartialQuestions` return the fixed five-question fallback (never
an empty list, since `parseQuestions` substitutes internally instead of
throwing); the fallback ids are `q1`–`q5`; and once those five are
emitted, the stream's per-id deduplication suppresses every later
question reusing one of those ids. -/
theorem streaming_fallback_dedup :
    (∀ text, extractQuestions text = none →
      tryParsePartialQuestions text = getFallbackQuestions) ∧
    getFallbackQuestions.map QuestionR.id
      = [.str "q1", .str "q2", .str "q3", .str "q4", .str "q5"] ∧
    (∀ (rest : List QuestionR) (q : QuestionR),
      q.id ∈ getFallbackQuestions.map QuestionR.id →
      q ∉ getFallbackQuestions →
      q ∉ emittedQuestions (getFallbackQuestions ++ rest)) := by
  refine ⟨fun text h => ?_, by decide, fun rest q hid hq hmem => ?_⟩
  · simp [tryParsePartialQuestions, parseQuestions, h]
  · rw [emittedQuestions, List.foldl_append] at hmem
    have hfb : getFallbackQuestions.foldl dedupStep [] = getFallbackQuestions := by
      decide
    rw [hfb] at hmem
    rcases mem_foldl_dedupStep rest getFallbackQuestions q hmem with h1 | h1
    · exact hq h1
    · exact h1 hid

theorem streaming_fallback_dedup_witness :
    tryParsePartialQuestions "streaming chunk" = getFallbackQuestions ∧
    (⟨.str "q1", .str "Real generated question", .str "tech_stack", .arr .nil⟩ : QuestionR)
      ∉ emittedQuestions (getFallbackQuestions ++
        [⟨.str "q1", .str "Real generated question", .str "tech_stack", .arr .nil⟩]) :=
  ⟨streaming_fallback_dedup.1 "streaming chunk" (by decide),
   streaming_fallback_dedup.2.2
     [⟨.str "q1", .str "Real generated question", .str "tech_stack", .arr .nil⟩]
     ⟨.str "q1", .str "Real generated question", .str "tech_stack", .arr .nil⟩
     (by decide) (by decide)⟩

/-- `findIdx? p = some i` exactly when the list splits at position `i`
around its first `p`-satisfying element. -/
theorem findIdx?_decomp {α : Type} (p : α → Bool) :
    ∀ (l : List α) (i : Nat), l.findIdx? p = some i ↔
      ∃ pre c post, l = pre ++ c :: post ∧ pre.length = i ∧ p c = true ∧
        ∀ x ∈ pre, p x = false := by
  intro l
  induction l with
  | nil => intro i; simp
  | cons a l ih =>
    intro i
    rw [List.findIdx?_cons]
    by_cases hp : p a
    · rw [if_pos hp]
      constructor
      · intro h
        have hi : i = 0 := by simpa using h.symm
        subst hi
        exact ⟨[], a, l, rfl, rfl, hp, by simp⟩
      · rintro ⟨pre, c, post, hsplit, hlen, hc, hfree⟩
        cases pre with
        | nil => subst hlen; rfl
        | cons b pre' =>
          have hb : a = b := by simpa using congrArg List.head? hsplit
          subst hb
          exact absurd (hfree a (by simp)) (by simp [hp])
    · rw [if_neg hp, List.findIdx?_succ]
      constructor
      · intro h
        rcases Option.map_eq_some'.mp h with ⟨i', hi', rfl⟩
        rcases (ih i').mp hi' with ⟨pre, c, post, hsplit, hlen, hc, hfree⟩
        refine ⟨a :: pre, c, post, by simp [hsplit], by simp [hlen], hc, ?_⟩
        intro x hx
        rcases List.mem_cons.mp hx with rfl | hx
        · simpa using hp
        · exact hfree x hx
      · rintro ⟨pre, c, post, hsplit, hlen, hc, hfree⟩
        cases pre with
        | nil =>
          have hac : a = c := by simpa using congrArg List.head? hsplit
          subst hac
          exact absurd hc (by simpa using hp)
        | cons b pre' =>
          have hb : a = b := by simpa using congrArg List.head? hsplit
          subst hb
          have htl : l = pre' ++ c :: post := by simpa using congrArg List.tail hsplit
          rw [Option.map_eq_some']
          refine ⟨pre'.length,
            (ih pre'.length).mpr ⟨pre', c, post, htl, rfl, hc,
              fun x hx => hfree x (List.mem_cons_of_mem _ hx)⟩, ?_⟩
          simpa using hlen

/-- The index `findIdx?` returns is minimal: it is bounded by the position
of any `p`-satisfying element. -/
theorem findIdx?_le_split {α : Type} (p : α → Bool) :
    ∀ (A : List α) (l B : List α) (c : α) (i : Nat),
      l.findIdx? p = some i → l = A ++ c :: B → p c = true → i ≤ A.length := by
  intro A
  induction A with
  | nil =>
    intro l B c i hfind hsplit hc
    subst hsplit
    rw [List.nil_append, List.findIdx?_cons, if_pos hc] at hfind
    have hi : i = 0 := by simpa using hfind.symm
    simp [hi]
  | cons a A' ih =>
    intro l B c i hfind hsplit hc
    subst hsplit
    rw [List.cons_append, List.findIdx?_cons] at hfind
    by_cases hp : p a
    · rw [if_pos hp] at hfind
      have : i = 0 := by simpa using hfind.symm
      simp [this]
    · rw [if_neg hp, List.findIdx?_succ] at hfind
      rcases Option.map_eq_some'.mp hfind with ⟨i', hi', rfl⟩
      have := ih (A' ++ c :: B) B c i' hi' rfl hc
      simpa using Nat.succ_le_succ this
/-- If one split point lies strictly left of another, the second split's
distinguished element falls in the first split's right part. -/
theorem mem_of_split_lt {α : Type} :
    ∀ (A : List α) (l B A' B' : List α) (c c' : α),
      l = A ++ c :: B → l = A' ++ c' :: B' → A.length < A'.length → c' ∈ B := by
  intro A
  induction A with
  | nil =>
    intro l B A' B' c c' h1 h2 hlt
    cases A' with
    | nil => simp at hlt
    | cons a A'' =>
      subst h1
      have : B = A'' ++ c' :: B' := by simpa using congrArg List.tail h2
      simp [this]
  | cons a A₁ ih =>
    intro l B A' B' c c' h1 h2 hlt
    cases A' with
    | nil => simp at hlt
    | cons a' A₁' =>
      subst h1
      have htl : A₁ ++ c :: B = A₁' ++ c' :: B' := by
        simpa using congrArg List.tail h2
      exact ih (A₁ ++ c :: B) B A₁' B' c c' rfl htl (by simpa using hlt)

/-- **C9, counterexample.**  The regex is greedy, not first-balanced: the
spec-modelled first balanced span of `goodEnvelope ++ " \x7b\x7d"` is
`goodEnvelope` itself and decodes to one question, but `parseQuestions`
spans to the *last* closing brace, fails to decode, and substitutes the
fallback — so well-formed content after the first balanced object changes
which span is decoded, refuting the claim. -/
theorem extract_not_first_balanced :
    firstBalancedSpan (jsTrim (goodEnvelope ++ " \x7b\x7d")) = some goodEnvelope ∧
    parseQuestions goodEnvelope
      = [{ id := .str "a", text := .str "t", category := .str "other",
           options := .arr .nil }] ∧
    parseQuestions (goodEnvelope ++ " \x7b\x7d") = getFallbackQuestions ∧
    getFallbackQuestions
      ≠ [{ id := .str "a", text := .str "t", category := .str "other",
           options := .arr .nil }] := by
  decide

/-- **C9, amended.**  `extract` decodes the span running from the *first*
opening brace of the trimmed text to the *last* closing brace (the greedy
regex match), and signals extraction-failure when no opening brace
precedes a closing brace — so well-formed content after the first
balanced object extends the decoded span and can change the result. -/
theorem jsonMatch_greedy_span :
    (∀ s m, jsonMatch s = some m →
      ∃ pre post, s.toList = pre ++ m.toList ++ post ∧
        (∀ c ∈ pre, c ≠ '{') ∧ (∀ c ∈ post, c ≠ '}') ∧
        m.toList.head? = some '{' ∧ m.toList.getLast? = some '}') ∧
    (∀ s, jsonMatch s = none →
      ∀ pre mid post, s.toList ≠ pre ++ '{' :: (mid ++ '}' :: post)) ∧
    (∀ text, jsonMatch (jsTrim text) = none →
      extractQuestions text = none ∧ parseQuestions text = getFallbackQuestions) := by
  refine ⟨fun s m h => ?_, fun s h pre mid post hsplit => ?_, fun text h => ?_⟩
  · unfold jsonMatch at h
    split at h
    case h_2 => exact absurd h (by simp)
    case h_1 i rj hfi hfj =>
      by_cases hij : i < s.toList.length - 1 - rj
      · rw [if_pos hij] at h
        injection h with hm
        subst hm
        rcases (findIdx?_decomp _ s.toList i).mp hfi with ⟨P1, c1, R1, hs1, hl1, hc1, hf1⟩
        rcases (findIdx?_decomp _ s.toList.reverse rj).mp hfj with
          ⟨P2, c2, R2, hs2, hl2, hc2, hf2⟩
        have hc1' : c1 = '{' := by simpa using hc1
        have hc2' : c2 = '}' := by simpa using hc2
        subst hc1'; subst hc2'
        set j := s.toList.length - 1 - rj with hjdef
        have hsC : s.toList = R2.reverse ++ '}' :: P2.reverse := by
          have := congrArg List.reverse hs2
          simpa using this
        have hlens : s.toList.length = rj + 1 + R2.length := by
          have h1 := congrArg List.length hs2
          simp only [List.length_reverse, List.length_append, List.length_cons] at h1
          omega
        have hlenR : R2.length = j := by omega
        have hdropi : s.toList.drop i = '{' :: R1 := by
          rw [hs1]
          exact List.drop_left' hl1
        have hml : (String.mk ((s.toList.drop i).take (j - i + 1))).toList
            = (s.toList.drop i).take (j - i + 1) := rfl
        have hP1 : s.toList.take i = P1 := by
          rw [hs1]; exact List.take_left' hl1
        have hpost : s.toList.drop (j + 1) = P2.reverse := by
          have hs3 : s.toList = (R2.reverse ++ ['}']) ++ P2.reverse := by
            rw [hsC]; simp
          rw [hs3]
          apply List.drop_left'
          simp only [List.length_append, List.length_reverse, List.length_cons,
            List.length_nil]
          omega
        refine ⟨P1, P2.reverse, ?_, ?_, ?_, ?_, ?_⟩
        · have hdd : (s.toList.drop i).drop (j - i + 1) = s.toList.drop (j + 1) := by
            rw [List.drop_drop]
            congr 1
            omega
          have h1 : (String.mk ((s.toList.drop i).take (j - i + 1))).toList ++ P2.reverse
              = s.toList.drop i := by
            rw [hml, ← hpost, ← hdd]
            exact List.take_append_drop _ _
          calc s.toList = s.toList.take i ++ s.toList.drop i :=
                (List.take_append_drop _ _).symm
            _ = P1 ++ ((String.mk ((s.toList.drop i).take (j - i + 1))).toList
                ++ P2.reverse) := by rw [hP1, h1]
            _ = P1 ++ (String.mk ((s.toList.drop i).take (j - i + 1))).toList
                ++ P2.reverse := by rw [List.append_assoc]
        · intro c hcP
          simpa using hf1 c hcP
        · intro c hcD
          simpa using hf2 c (List.mem_reverse.mp hcD)
        · rw [hml, hdropi]
          rfl
        · have hiC : i ≤ R2.reverse.length := by
            simp only [List.length_reverse]
            omega
          have hsplitC : s.toList = R2.reverse.take i ++
              (R2.reverse.drop i ++ '}' :: P2.reverse) := by
            conv_lhs => rw [hsC]
            rw [← List.append_assoc, List.take_append_drop]
          have hlti : (R2.reverse.take i).length = i := by
            simp only [List.length_take, List.length_reverse]
            omega
          have hdropi2 : s.toList.drop i = R2.reverse.drop i ++ '}' :: P2.reverse := by
            rw [hsplitC]
            exact List.drop_left' hlti
          rw [hml, hdropi2]
          have hassoc : R2.reverse.drop i ++ '}' :: P2.reverse
              = (R2.reverse.drop i ++ ['}']) ++ P2.reverse := by simp
          rw [hassoc, List.take_left']
          · exact List.getLast?_concat _
          · simp only [List.length_append, List.length_drop, List.length_reverse,
              List.length_cons, List.length_nil]
            omega
      · rw [if_neg hij] at h
        exact absurd h (by simp)
  · unfold jsonMatch at h
    split at h
    case h_1 i rj hfi hfj =>
      by_cases hij : i < s.toList.length - 1 - rj
      · rw [if_pos hij] at h
        exact absurd h (by simp)
      · rcases (findIdx?_decomp _ s.toList.reverse rj).mp hfj with
          ⟨P2, c2, R2, hs2, hl2, hc2, hf2⟩
        have hc2' : c2 = '}' := by simpa using hc2
        subst hc2'
        have hsC : s.toList = R2.reverse ++ '}' :: P2.reverse := by
          have := congrArg List.reverse hs2
          simpa using this
        have hlens : s.toList.length = rj + 1 + R2.length := by
          have h1 := congrArg List.length hs2
          simp only [List.length_reverse, List.length_append, List.length_cons] at h1
          omega
        have hle : i ≤ pre.length :=
          findIdx?_le_split _ pre s.toList (mid ++ '}' :: post) '{' i hfi hsplit
            (by simp)
        have hsplit2 : s.toList = (pre ++ '{' :: mid) ++ '}' :: post := by
          rw [hsplit]; simp
        by_cases hCM : R2.reverse.length < (pre ++ '{' :: mid).length
        · have hdm : '}' ∈ P2.reverse :=
            mem_of_split_lt R2.reverse s.toList P2.reverse (pre ++ '{' :: mid) post
              '}' '}' hsC hsplit2 hCM
          simpa using hf2 '}' (List.mem_reverse.mp hdm)
        · simp only [not_lt, List.length_append, List.length_cons,
            List.length_reverse] at hCM
          omega
    case h_2 o1 o2 hnb =>
      have h1 : (s.toList.findIdx? (fun c => c == '{')).isSome := by
        rw [List.findIdx?_isSome]
        apply List.any_eq_true.mpr
        exact ⟨'{', by rw [hsplit]; simp, by simp⟩
      have h2 : (s.toList.reverse.findIdx? (fun c => c == '}')).isSome := by
        rw [List.findIdx?_isSome]
        apply List.any_eq_true.mpr
        refine ⟨'}', ?_, by simp⟩
        rw [List.mem_reverse, hsplit]
        simp
      rcases Option.isSome_iff_exists.mp h1 with ⟨i, hi⟩
      rcases Option.isSome_iff_exists.mp h2 with ⟨rj, hj⟩
      exact hnb i rj hi hj
  · constructor
    · simp [extractQuestions, h]
    · simp [parseQuestions, extractQuestions, h]

theorem jsonMatch_greedy_span_witness :
    (∃ pre post,
      ("a\x7bb\x7dc" : String).toList = pre ++ ("\x7bb\x7d" : String).toList ++ post ∧
      (∀ c ∈ pre, c ≠ '{') ∧ (∀ c ∈ post, c ≠ '}') ∧
      ("\x7bb\x7d" : String).toList.head? = some '{' ∧
      ("\x7bb\x7d" : String).toList.getLast? = some '}') ∧
    (∀ pre mid post,
      ("\x7d\x7b" : String).toList ≠ pre ++ '{' :: (mid ++ '}' :: post)) ∧
    (extractQuestions "plain text" = none ∧
      parseQuestions "plain text" = getFallbackQuestions) :=
  ⟨jsonMatch_greedy_span.1 "a\x7bb\x7dc" "\x7bb\x7d" (by decide),
   jsonMatch_greedy_span.2.1 "\x7d\x7b" (by decide),
   jsonMatch_greedy_span.2.2 "plain text" (by decide)⟩

/-!
### Association-list lemmas for the store theorems
-/

theorem alGet_cons {α : Type} (p : String × α) (m : List (String × α)) (k : String) :
    alGet (p :: m) k = if (p.1 == k) = true then some p.2 else alGet m k := by
  by_cases hp : (p.1 == k) = true
  · simp only [alGet, List.find?_cons, hp, if_pos hp]
    rfl
  · have hp' : (p.1 == k) = false := by simpa using hp
    simp [alGet, List.find?_cons, hp']

theorem alGet_alSet_self {α : Type} :
    ∀ (m : List (String × α)) (k : String) (v : α), alGet (alSet m k v) k = some v := by
  intro m k v
  unfold alSet
  by_cases h : m.any (fun p => p.1 == k)
  · rw [if_pos h]
    induction m with
    | nil => simp at h
    | cons p m ih =>
      simp only [List.map_cons]
      by_cases hp : (p.1 == k) = true
      · rw [if_pos hp, alGet_cons]
        simp
      · rw [if_neg hp, alGet_cons, if_neg (by simpa using hp)]
        exact ih (by simpa [hp] using h)
  · rw [if_neg h]
    induction m with
    | nil => simp [alGet]
    | cons p m ih =>
      have hp : ¬ (p.1 == k) = true := fun hk => h (by simp [List.any_cons, hk])
      rw [List.cons_append, alGet_cons, if_neg hp]
      exact ih (fun hk => h (by simp [List.any_cons, hk]))

theorem alGet_map_set_ne {α : Type} (k k' : String) (v : α) (hne : k ≠ k') :
    ∀ m : List (String × α),
      alGet (m.map (fun p => if p.1 == k then (k, v) else p)) k' = alGet m k' := by
  intro m
  induction m with
  | nil => simp [alGet]
  | cons p m ih =>
    simp only [List.map_cons]
    by_cases hp : (p.1 == k) = true
    · rw [if_pos hp, alGet_cons, alGet_cons]
      have hk : ¬ (k == k') = true := by simpa using hne
      have hp' : ¬ (p.1 == k') = true := by
        have hpk : p.1 = k := by simpa using hp
        simpa [hpk] using hne
      rw [if_neg hk, if_neg hp']
      exact ih
    · rw [if_neg hp, alGet_cons, alGet_cons]
      by_cases hq : (p.1 == k') = true
      · rw [if_pos hq, if_pos hq]
      · rw [if_neg hq, if_neg hq]
        exact ih

theorem alGet_append_single_ne {α : Type} (k k' : String) (v : α) (hne : k ≠ k') :
    ∀ m : List (String × α), alGet (m ++ [(k, v)]) k' = alGet m k' := by
  intro m
  induction m with
  | nil => simp [alGet, List.find?, show ¬ (k == k') = true by simpa using hne]
  | cons p m ih =>
    rw [List.cons_append, alGet_cons, alGet_cons]
    by_cases hp : (p.1 == k') = true
    · rw [if_pos hp, if_pos hp]
    · rw [if_neg hp, if_neg hp]
      exact ih

theorem alGet_alSet_ne {α : Type} (m : List (String × α)) (k k' : String) (v : α)
    (hne : k ≠ k') : alGet (alSet m k v) k' = alGet m k' := by
  unfold alSet
  by_cases h : m.any (fun p => p.1 == k)
  · rw [if_pos h]
    exact alGet_map_set_ne k k' v hne m
  · rw [if_neg h]
    exact alGet_append_single_ne k k' v hne m

theorem mem_alSet {α : Type} (m : List (String × α)) (k : String) (v : α) :
    ∀ p ∈ alSet m k v, p ∈ m ∨ p = (k, v) := by
  intro p hp
  unfold alSet at hp
  by_cases h : m.any (fun q => q.1 == k)
  · rw [if_pos h] at hp
    rcases List.mem_map.mp hp with ⟨q, hq, hqe⟩
    by_cases hqk : (q.1 == k) = true
    · right; rw [← hqe, if_pos hqk]
    · left; rw [← hqe, if_neg hqk]; exact hq
  · rw [if_neg h] at hp
    rcases List.mem_append.mp hp with h1 | h1
    · exact Or.inl h1
    · exact Or.inr (by simpa using h1)

/-- **C4.**  `addResponse` returns not-found — never an exception — when
the session id or the question id does not resolve, leaving the whole
store (sessions, timestamps, persisted files) unchanged; on success it
writes the answer (overwriting any previous one for that question id, as
the lookup after the write shows), bumps `lastUpdated` to the write time,
and persists the session. -/
theorem addResponse_spec :
    (∀ st sid qid ans now, getSession st sid = none →
      addResponse st sid qid ans now = (false, st)) ∧
    (∀ st sid qid ans now s, getSession st sid = some s →
      qid ∉ s.questions.map Question.id →
      addResponse st sid qid ans now = (false, st)) ∧
    (∀ st sid qid ans now s, getSession st sid = some s →
      qid ∈ s.questions.map Question.id →
      addResponse st sid qid ans now =
        (true,
          { sessions := alSet st.sessions sid
              { s with responses := alSet s.responses qid ans, lastUpdated := now }
            files := saveSession st.files
              { s with responses := alSet s.responses qid ans, lastUpdated := now } }) ∧
      alGet (alSet s.responses qid ans) qid = some ans) := by
  refine ⟨fun st sid qid ans now h => ?_, fun st sid qid ans now s h hq => ?_,
    fun st sid qid ans now s h hq => ?_⟩
  · have h' : alGet st.sessions sid = none := h
    simp [addResponse, h']
  · have h' : alGet st.sessions sid = some s := h
    have hfind : s.questions.find? (fun q => q.id == qid) = none := by
      rw [List.find?_eq_none]
      intro q hmem hqid
      exact hq (List.mem_map.mpr ⟨q, hmem, by simpa using hqid⟩)
    simp [addResponse, h', hfind]
  · have h' : alGet st.sessions sid = some s := h
    rcases List.mem_map.mp hq with ⟨q, hmem, hid⟩
    have hsome : (s.questions.find? (fun q => q.id == qid)).isSome := by
      rw [List.find?_isSome]
      exact ⟨q, hmem, by simp [hid]⟩
    rcases Option.isSome_iff_exists.mp hsome with ⟨q', hq'⟩
    constructor
    · simp [addResponse, h', hq']
    · exact alGet_alSet_self s.responses qid ans

theorem addResponse_spec_witness :
    addResponse storeW "missing" "q1" "x" 99 = (false, storeW) ∧
    addResponse storeW "s1" "zz" "x" 99 = (false, storeW) ∧
    (addResponse storeW "s1" "q3" "Docker" 99 =
        (true,
          { sessions := alSet storeW.sessions "s1" sessionW3
            files := saveSession storeW.files sessionW3 }) ∧
      alGet (alSet sessionW.responses "q3" "Docker") "q3" = some "Docker") :=
  ⟨addResponse_spec.1 storeW "missing" "q1" "x" 99 (by decide),
   addResponse_spec.2.1 storeW "s1" "zz" "x" 99 sessionW (by decide) (by decide),
   addResponse_spec.2.2 storeW "s1" "q3" "Docker" 99 sessionW (by decide) (by decide)⟩

theorem mem_keys_alSet {α : Type} (m : List (String × α)) (k : String) (v : α) :
    ∀ x ∈ (alSet m k v).map Prod.fst, x ∈ m.map Prod.fst ∨ x = k := by
  intro x hx
  rcases List.mem_map.mp hx with ⟨p, hp, rfl⟩
  rcases mem_alSet m k v p hp with h1 | h1
  · exact Or.inl (List.mem_map.mpr ⟨p, h1, rfl⟩)
  · right; rw [h1]

theorem alGet_some_mem {α : Type} (m : List (String × α)) (k : String) (v : α)
    (h : alGet m k = some v) : ∃ p ∈ m, p.2 = v ∧ p.1 = k := by
  unfold alGet at h
  cases hf : m.find? (fun p => p.1 == k) with
  | none => rw [hf] at h; simp at h
  | some p =>
    rw [hf] at h
    simp only [Option.map_some'] at h
    have hp := List.find?_some hf
    exact ⟨p, List.mem_of_find?_eq_some hf, by simpa using h, by simpa using hp⟩

theorem insertByIdx_perm (v : String × String) :
    ∀ l, (insertByIdx v l).Perm (v :: l) := by
  intro l
  induction l with
  | nil => simp [insertByIdx]
  | cons w ws ih =>
    unfold insertByIdx
    by_cases hc : digitsVal v.1.toList ≤ digitsVal w.1.toList
    · rw [if_pos hc]
    · rw [if_neg hc]
      exact (ih.cons w).trans (List.Perm.swap v w ws)

theorem sortByIdx_perm : ∀ l, (sortByIdx l).Perm l := by
  intro l
  induction l with
  | nil => simp [sortByIdx]
  | cons v vs ih =>
    unfold sortByIdx
    exact (insertByIdx_perm v (sortByIdx vs)).trans (ih.cons v)

theorem jsObjectOrder_perm (m : List (String × String)) : (jsObjectOrder m).Perm m := by
  unfold jsObjectOrder
  exact ((sortByIdx_perm _).append_right _).trans (List.filter_append_perm _ m)

theorem foldLoad_inv :
    ∀ (files : List (String × SessionFile)) (acc : List (String × Session)),
      (∀ p ∈ acc, sessionInv p.2) → (∀ f ∈ files, fileInv f.2) →
      ∀ p ∈ files.foldl
        (fun acc f =>
          if strEndsWith f.1 ".json" then
            alSet acc (sessionOfFile f.2).sessionId (sessionOfFile f.2)
          else acc) acc,
        sessionInv p.2 := by
  intro files
  induction files with
  | nil => intro acc hacc _ p hp; exact hacc p hp
  | cons f fs ih =>
    intro acc hacc hfiles p hp
    simp only [List.foldl_cons] at hp
    refine ih _ ?_ (fun g hg => hfiles g (List.mem_cons_of_mem _ hg)) p hp
    intro q hq
    by_cases he : strEndsWith f.1 ".json"
    · rw [if_pos he] at hq
      rcases mem_alSet _ _ _ q hq with h1 | h1
      · exact hacc q h1
      · rw [h1]
        exact hfiles f (by simp)
    · rw [if_neg he] at hq
      exact hacc q hq

/-- **C5.**  The answer-key invariant is preserved by every store
operation: creation starts with an empty mapping, `addResponse` checks the
question id at write time, the expiry sweep only removes sessions, startup
recovery reproduces whatever invariant the files satisfy, and the files
this store writes always satisfy it. -/
theorem sessionStore_invariant :
    (∀ st sid task qs now, storeInv st → storeInv (createSession st sid task qs now).2) ∧
    (∀ st sid qid ans now, storeInv st → storeInv (addResponse st sid qid ans now).2) ∧
    (∀ st now timeout, storeInv st → storeInv (cleanupTick st now timeout)) ∧
    (∀ files, (∀ f ∈ files, fileInv f.2) → storeInv (startupStore files)) ∧
    (∀ s, sessionInv s → fileInv (sessionToFile s)) := by
  refine ⟨fun st sid task qs now hinv => ?_, fun st sid qid ans now hinv => ?_,
    fun st now timeout hinv => ?_, fun files hfiles => ?_, fun s hs => ?_⟩
  · intro p hp
    rcases mem_alSet _ _ _ p hp with h1 | h1
    · exact hinv p h1
    · rw [h1]
      intro k hk
      simp at hk
  · cases hG : alGet st.sessions sid with
    | none =>
      simp only [addResponse, hG]
      exact hinv
    | some s =>
      cases hq : s.questions.find? (fun q => q.id == qid) with
      | none =>
        simp only [addResponse, hG, hq]
        exact hinv
      | some q' =>
        have hq'id : q'.id = qid := by simpa using List.find?_some hq
        have hq'mem : q' ∈ s.questions := List.mem_of_find?_eq_some hq
        have hsInv : sessionInv s := by
          rcases alGet_some_mem _ _ _ hG with ⟨p, hp, hp2, _⟩
          rw [← hp2]
          exact hinv p hp
        simp only [addResponse, hG, hq]
        intro p hp
        rcases mem_alSet _ _ _ p hp with h1 | h1
        · exact hinv p h1
        · rw [h1]
          intro k hk
          rcases mem_keys_alSet _ _ _ k hk with h2 | h2
          · exact hsInv k h2
          · rw [h2]
            exact List.mem_map.mpr ⟨q', hq'mem, hq'id⟩
  · intro p hp
    exact hinv p (List.mem_filter.mp hp).1
  · intro p hp
    have : ∀ q ∈ loadSessions files, sessionInv q.2 := by
      intro q hq
      refine foldLoad_inv files [] (by simp) hfiles q ?_
      simpa [loadSessions] using hq
    exact this p hp
  · intro k hk
    have hperm : ((jsObjectOrder s.responses).map Prod.fst).Perm
        (s.responses.map Prod.fst) := (jsObjectOrder_perm s.responses).map _
    exact hs k (hperm.mem_iff.mp hk)

theorem sessionStore_invariant_witness :
    storeInv (createSession storeW "s2" "new task" sessionW.questions 5).2 ∧
    storeInv (addResponse storeW "s1" "q3" "Docker" 99).2 ∧
    storeInv (cleanupTick storeW 100 50) ∧
    storeInv (startupStore storeW.files) ∧
    fileInv (sessionToFile sessionW) :=
  ⟨sessionStore_invariant.1 storeW "s2" "new task" sessionW.questions 5 (by decide),
   sessionStore_invariant.2.1 storeW "s1" "q3" "Docker" 99 (by decide),
   sessionStore_invariant.2.2.1 storeW 100 50 (by decide),
   sessionStore_invariant.2.2.2.1 storeW.files (by decide),
   sessionStore_invariant.2.2.2.2 sessionW (by decide)⟩

theorem alGet_eq_none_iff {α : Type} :
    ∀ (m : List (String × α)) (k : String), alGet m k = none ↔ k ∉ m.map Prod.fst := by
  intro m k
  induction m with
  | nil => simp [alGet]
  | cons p m ih =>
    rw [alGet_cons]
    by_cases hp : (p.1 == k) = true
    · rw [if_pos hp, List.map_cons]
      have hpk : p.1 = k := by simpa using hp
      simp only [List.mem_cons]
      constructor
      · intro h; exact Option.noConfusion h
      · intro h; exact absurd (Or.inl hpk.symm) h
    · rw [if_neg hp, ih, List.map_cons]
      have hpk : p.1 ≠ k := by simpa using hp
      simp only [List.mem_cons]
      constructor
      · intro h hk
        rcases hk with h1 | h1
        · exact hpk h1.symm
        · exact h h1
      · intro h hk
        exact h (Or.inr hk)

theorem alGet_eq_some_of_mem_nodup {α : Type} (k : String) (v : α) :
    ∀ m : List (String × α), (m.map Prod.fst).Nodup → (k, v) ∈ m →
      alGet m k = some v := by
  intro m
  induction m with
  | nil => simp
  | cons q m ih =>
    intro hnd hmem
    rw [List.map_cons] at hnd
    have hnd' := List.nodup_cons.mp hnd
    rcases List.mem_cons.mp hmem with h1 | h1
    · rw [← h1, alGet_cons]
      simp
    · have hq : q.1 ≠ k := by
        intro hqk
        exact hnd'.1 (by rw [hqk]; exact List.mem_map.mpr ⟨(k, v), h1, rfl⟩)
      rw [alGet_cons, if_neg (by simpa using hq)]
      exact ih hnd'.2 h1

theorem alGet_perm {α : Type} (m m' : List (String × α)) (hperm : m.Perm m')
    (hnd : (m.map Prod.fst).Nodup) (k : String) : alGet m k = alGet m' k := by
  cases hG : alGet m k with
  | none =>
    rw [alGet_eq_none_iff] at hG
    symm
    rw [alGet_eq_none_iff]
    exact fun hk => hG (((hperm.map Prod.fst).mem_iff).mpr hk)
  | some v =>
    rcases alGet_some_mem _ _ _ hG with ⟨p, hp, hp2, hp1⟩
    have hpkv : (k, v) ∈ m' := by
      have : p = (k, v) := by
        cases p; simp at hp1 hp2; simp [hp1, hp2]
      exact hperm.mem_iff.mp (this ▸ hp)
    exact (alGet_eq_some_of_mem_nodup k v m'
      (((hperm.map Prod.fst).nodup_iff).mp hnd) hpkv).symm

theorem strEndsWith_fileName (sid : String) : strEndsWith (fileName sid) ".json" = true := by
  unfold strEndsWith fileName
  rw [List.isSuffixOf_iff_suffix]
  show (".json" : String).toList <:+ (sid ++ ".json").data
  rw [String.data_append]
  exact List.suffix_append _ _

/-- **C6.**  Persisting a session and reloading it (as at process restart)
recovers the session id, task description, question list and both
timestamps exactly, and the answer mapping as a mapping: the reloaded
entry list is a permutation of the original (JavaScript objects order
array-index-like keys first) with identical lookups on every key; reading
the freshly written file back through startup recovery yields exactly this
reloaded session. -/
theorem session_roundTrip :
    ∀ s : Session, (s.responses.map Prod.fst).Nodup →
      (sessionOfFile (sessionToFile s)).sessionId = s.sessionId ∧
      (sessionOfFile (sessionToFile s)).taskDescription = s.taskDescription ∧
      (sessionOfFile (sessionToFile s)).questions = s.questions ∧
      (sessionOfFile (sessionToFile s)).createdAt = s.createdAt ∧
      (sessionOfFile (sessionToFile s)).lastUpdated = s.lastUpdated ∧
      (sessionOfFile (sessionToFile s)).responses.Perm s.responses ∧
      (∀ k, alGet (sessionOfFile (sessionToFile s)).responses k = alGet s.responses k) ∧
      getSession (startupStore (saveSession [] s)) s.sessionId
        = some (sessionOfFile (sessionToFile s)) := by
  intro s hnd
  have hresp : (sessionOfFile (sessionToFile s)).responses = jsObjectOrder s.responses :=
    rfl
  have hperm : (sessionOfFile (sessionToFile s)).responses.Perm s.responses := by
    rw [hresp]; exact jsObjectOrder_perm s.responses
  refine ⟨rfl, rfl, rfl, rfl, rfl, hperm, fun k => ?_, ?_⟩
  · refine alGet_perm _ _ hperm ?_ k
    rw [hresp]
    exact (((jsObjectOrder_perm s.responses).map Prod.fst).nodup_iff).mpr hnd
  · show alGet (loadSessions (alSet [] (fileName s.sessionId) (sessionToFile s)))
      s.sessionId = _
    have halset : alSet ([] : List (String × SessionFile)) (fileName s.sessionId)
        (sessionToFile s) = [(fileName s.sessionId, sessionToFile s)] := rfl
    rw [halset]
    show alGet (List.foldl _ [] [(fileName s.sessionId, sessionToFile s)]) _ = _
    rw [List.foldl_cons, List.foldl_nil]
    simp only [strEndsWith_fileName, if_pos]
    rw [show (sessionOfFile (sessionToFile s)).sessionId = s.sessionId from rfl]
    rw [show alSet ([] : List (String × Session)) s.sessionId
        (sessionOfFile (sessionToFile s))
      = [(s.sessionId, sessionOfFile (sessionToFile s))] from rfl]
    rw [alGet_cons]
    simp

theorem session_roundTrip_witness :
    (sessionOfFile (sessionToFile sessionW)).sessionId = sessionW.sessionId ∧
    (sessionOfFile (sessionToFile sessionW)).taskDescription = sessionW.taskDescription ∧
    (sessionOfFile (sessionToFile sessionW)).questions = sessionW.questions ∧
    (sessionOfFile (sessionToFile sessionW)).createdAt = sessionW.createdAt ∧
    (sessionOfFile (sessionToFile sessionW)).lastUpdated = sessionW.lastUpdated ∧
    (sessionOfFile (sessionToFile sessionW)).responses.Perm sessionW.responses ∧
    (∀ k, alGet (sessionOfFile (sessionToFile sessionW)).responses k
      = alGet sessionW.responses k) ∧
    getSession (startupStore (saveSession [] sessionW)) sessionW.sessionId
      = some (sessionOfFile (sessionToFile sessionW)) :=
  session_roundTrip sessionW (by decide)

theorem alGet_alRemove_self {α : Type} (m : List (String × α)) (k : String) :
    alGet (alRemove m k) k = none := by
  rw [alGet_eq_none_iff]
  intro hk
  rcases List.mem_map.mp hk with ⟨p, hp, rfl⟩
  have hpred := (List.mem_filter.mp hp).2
  simp at hpred

theorem alGet_alRemove_ne {α : Type} (k k' : String) (hne : k' ≠ k) :
    ∀ m : List (String × α), alGet (alRemove m k) k' = alGet m k' := by
  intro m
  induction m with
  | nil => rfl
  | cons p m ih =>
    unfold alRemove at ih ⊢
    rw [List.filter_cons]
    by_cases hp : (p.1 != k) = true
    · rw [if_pos hp, alGet_cons, alGet_cons]
      by_cases hq : (p.1 == k') = true
      · rw [if_pos hq, if_pos hq]
      · rw [if_neg hq, if_neg hq]
        exact ih
    · rw [if_neg hp, alGet_cons]
      have hpk : p.1 = k := by simpa using hp
      have hq : ¬ (p.1 == k') = true := by
        rw [hpk]
        simpa using fun h => hne h.symm
      rw [if_neg hq]
      exact ih

theorem fileName_injective (a b : String) (h : fileName a = fileName b) : a = b := by
  unfold fileName at h
  have hd := congrArg String.data h
  rw [String.data_append, String.data_append] at hd
  exact String.ext (List.append_cancel_right hd)

theorem alGet_foldl_remove :
    ∀ (sids : List String) (files : List (String × SessionFile)) (k : String),
      alGet (sids.foldl (fun fs sid => alRemove fs (fileName sid)) files) k
        = if k ∈ sids.map fileName then none else alGet files k := by
  intro sids
  induction sids with
  | nil => intro files k; simp
  | cons sid sids ih =>
    intro files k
    rw [List.foldl_cons, ih]
    by_cases h1 : k ∈ sids.map fileName
    · rw [if_pos h1, if_pos (by simp [h1])]
    · rw [if_neg h1]
      by_cases h2 : k = fileName sid
      · rw [if_pos (by simp [h2]), h2]
        exact alGet_alRemove_self _ _
      · rw [if_neg (by simp [h1, h2]), alGet_alRemove_ne _ _ h2]

/-- A member of a unique-key association list is exactly what `alGet`
returns for its key. -/
theorem alGet_of_mem_nodup {α : Type} (m : List (String × α))
    (hnd : (m.map Prod.fst).Nodup) (p : String × α) (hp : p ∈ m) :
    alGet m p.1 = some p.2 :=
  alGet_eq_some_of_mem_nodup p.1 p.2 m hnd (by simpa using hp)

/-- **C7.**  After one sweep tick, every session whose last-modified time
is more than the timeout in the past is gone from the in-memory map, is
not listed by `getAllSessions`, and its persisted file has been unlinked;
every other session and its file are untouched.  (Key uniqueness and
key/`sessionId` agreement are `Map` invariants of the store.) -/
theorem cleanupTick_spec :
    ∀ st now timeout, (st.sessions.map Prod.fst).Nodup →
      (∀ p ∈ st.sessions, p.2.sessionId = p.1) →
      ∀ sid s, getSession st sid = some s →
        (timeout < now - s.lastUpdated →
          getSession (cleanupTick st now timeout) sid = none ∧
          (∀ ctx ∈ getAllSessions (cleanupTick st now timeout), ctx.sessionId ≠ sid) ∧
          alGet (cleanupTick st now timeout).files (fileName sid) = none) ∧
        (¬ timeout < now - s.lastUpdated →
          getSession (cleanupTick st now timeout) sid = some s ∧
          alGet (cleanupTick st now timeout).files (fileName sid)
            = alGet st.files (fileName sid)) := by
  intro st now timeout hnd hcons sid s hs
  rcases alGet_some_mem _ _ _ hs with ⟨p, hpmem, hp2, hp1⟩
  have hpe : p = (sid, s) := by
    cases p
    simp only at hp1 hp2
    simp [hp1, hp2]
  subst hpe
  have hs' : alGet st.sessions sid = some s := hs
  have huniq : ∀ q ∈ st.sessions, q.1 = sid → q = (sid, s) := by
    intro q hq hq1
    have h1 : alGet st.sessions q.1 = some q.2 := alGet_of_mem_nodup _ hnd q hq
    rw [hq1, hs'] at h1
    cases q
    simp only at hq1
    simp only [Option.some.injEq] at h1
    simp [hq1, ← h1]
  constructor
  · intro hexp
    have hmemexp : (sid, s) ∈ st.sessions.filter
        (fun p => decide (timeout < now - p.2.lastUpdated)) :=
      List.mem_filter.mpr ⟨hpmem, by simpa using hexp⟩
    refine ⟨?_, ?_, ?_⟩
    · rw [show getSession (cleanupTick st now timeout) sid
          = alGet ((cleanupTick st now timeout).sessions) sid from rfl]
      rw [alGet_eq_none_iff]
      intro hk
      rcases List.mem_map.mp hk with ⟨q, hq, hq1⟩
      have hqmem := (List.mem_filter.mp hq).1
      have hqpred := (List.mem_filter.mp hq).2
      have := huniq q hqmem hq1
      rw [this] at hqpred
      simp only [Bool.not_eq_true'] at hqpred
      simp [hexp] at hqpred
    · intro ctx hctx hctxid
      rcases List.mem_map.mp hctx with ⟨q, hq, hqctx⟩
      have hqmem := (List.mem_filter.mp hq).1
      have hqpred := (List.mem_filter.mp hq).2
      have hq1 : q.1 = sid := by
        rw [← hcons q hqmem, ← hctxid, ← hqctx]
        rfl
      have := huniq q hqmem hq1
      rw [this] at hqpred
      simp [hexp] at hqpred
    · show alGet ((expiredKeys st now timeout).foldl
        (fun fs sid => alRemove fs (fileName sid)) st.files) (fileName sid) = none
      rw [alGet_foldl_remove]
      rw [if_pos]
      apply List.mem_map.mpr
      refine ⟨sid, ?_, rfl⟩
      unfold expiredKeys
      exact List.mem_map.mpr ⟨(sid, s), hmemexp, rfl⟩
  · intro hlive
    have hkeep : (sid, s) ∈ st.sessions.filter
        (fun p => !decide (timeout < now - p.2.lastUpdated)) :=
      List.mem_filter.mpr ⟨hpmem, by simpa using hlive⟩
    refine ⟨?_, ?_⟩
    · show alGet ((cleanupTick st now timeout).sessions) sid = some s
      apply alGet_eq_some_of_mem_nodup
      · exact List.Nodup.sublist (List.Sublist.map _ (List.filter_sublist _)) hnd
      · exact hkeep
    · show alGet ((expiredKeys st now timeout).foldl
        (fun fs sid => alRemove fs (fileName sid)) st.files) (fileName sid) = _
      rw [alGet_foldl_remove, if_neg]
      intro hmem
      rcases List.mem_map.mp hmem with ⟨sid', hsid', hfn⟩
      have hsid : sid' = sid := fileName_injective _ _ hfn
      subst hsid
      unfold expiredKeys at hsid'
      rcases List.mem_map.mp hsid' with ⟨q, hq, hq1⟩
      have hqmem := (List.mem_filter.mp hq).1
      have hqpred := (List.mem_filter.mp hq).2
      have := huniq q hqmem hq1
      rw [this] at hqpred
      simp [hlive] at hqpred

theorem cleanupTick_spec_witness :
    (getSession (cleanupTick storeW 100 50) "s1" = none ∧
      (∀ ctx ∈ getAllSessions (cleanupTick storeW 100 50), ctx.sessionId ≠ "s1") ∧
      alGet (cleanupTick storeW 100 50).files (fileName "s1") = none) ∧
    (getSession (cleanupTick storeW 100 95) "s1" = some sessionW ∧
      alGet (cleanupTick storeW 100 95).files (fileName "s1")
        = alGet storeW.files (fileName "s1")) :=
  ⟨(cleanupTick_spec storeW 100 50 (by decide) (by decide) "s1" sessionW
      (by decide)).1 (by decide),
   (cleanupTick_spec storeW 100 95 (by decide) (by decide) "s1" sessionW
      (by decide)).2 (by decide)⟩

/-- **C8, counterexample.**  The two transports disagree on the triple
`("s1", "q1", "")`: the HTTP route rejects the empty answer with a 400
validation error and leaves the store untouched, while the MCP tool
handler, which never validates fields, passes it to `addResponse`, which
accepts it and records the empty answer. -/
theorem transports_disagree_on_empty_answer :
    (apiAnswer storeW "s1" "q1" "" 7).1 = HttpAnswerResult.badRequest ∧
    (apiAnswer storeW "s1" "q1" "" 7).2 = storeW ∧
    (handleAnswerQuestion storeW "s1" "q1" "" 7).1 = true ∧
    (handleAnswerQuestion storeW "s1" "q1" "" 7).2 ≠ storeW := by
  decide

/-- **C8, amended.**  For every request triple whose three fields are
non-empty strings, the tool-protocol `answer_question` and HTTP
`POST /api/answer` agree on acceptance and produce the same store (hence
the same change to the session's answer mapping); the divergence exists
only for requests with a falsy field, which HTTP rejects up front and the
tool handler forwards to the store. -/
theorem transports_agree_nonempty :
    ∀ st sid qid ans now, sid ≠ "" → qid ≠ "" → ans ≠ "" →
      (apiAnswer st sid qid ans now).1.isOk
        = (handleAnswerQuestion st sid qid ans now).1 ∧
      (apiAnswer st sid qid ans now).2
        = (handleAnswerQuestion st sid qid ans now).2 := by
  intro st sid qid ans now hsid hqid hans
  have hg1 : (sid == "") = false := by simpa using hsid
  have hg2 : (qid == "") = false := by simpa using hqid
  have hg3 : (ans == "") = false := by simpa using hans
  cases hG : alGet st.sessions sid with
  | none =>
    have hA : addResponse st sid qid ans now = (false, st) := by
      simp [addResponse, hG]
    constructor
    · simp [apiAnswer, handleAnswerQuestion, hA, hg1, hg2, hg3, HttpAnswerResult.isOk]
    · simp [apiAnswer, handleAnswerQuestion, hA, hg1, hg2, hg3]
  | some s =>
    cases hq : s.questions.find? (fun q => q.id == qid) with
    | none =>
      have hA : addResponse st sid qid ans now = (false, st) := by
        simp [addResponse, hG, hq]
      constructor
      · simp [apiAnswer, handleAnswerQuestion, hA, hg1, hg2, hg3, HttpAnswerResult.isOk]
      · simp [apiAnswer, handleAnswerQuestion, hA, hg1, hg2, hg3]
    | some q' =>
      have hA : addResponse st sid qid ans now =
          (true,
            { sessions := alSet st.sessions sid
                { s with responses := alSet s.responses qid ans, lastUpdated := now }
              files := saveSession st.files
                { s with responses := alSet s.responses qid ans, lastUpdated := now } }) := by
        simp [addResponse, hG, hq]
      have hctx : getTaskContext
          { sessions := alSet st.sessions sid
              { s with responses := alSet s.responses qid ans, lastUpdated := now }
            files := saveSession st.files
              { s with responses := alSet s.responses qid ans, lastUpdated := now } } sid
          = some (contextOf
              { s with responses := alSet s.responses qid ans, lastUpdated := now }) := by
        show (alGet (alSet st.sessions sid _) sid).map contextOf = _
        rw [alGet_alSet_self]
        rfl
      constructor
      · simp [apiAnswer, handleAnswerQuestion, hA, hg1, hg2, hg3, hctx,
          HttpAnswerResult.isOk]
      · simp [apiAnswer, handleAnswerQuestion, hA, hg1, hg2, hg3, hctx]

theorem transports_agree_nonempty_witness :
    (apiAnswer storeW "s1" "q3" "Docker" 9).1.isOk
      = (handleAnswerQuestion storeW "s1" "q3" "Docker" 9).1 ∧
    (apiAnswer storeW "s1" "q3" "Docker" 9).2
      = (handleAnswerQuestion storeW "s1" "q3" "Docker" 9).2 :=
  transports_agree_nonempty storeW "s1" "q3" "Docker" 9 (by decide) (by decide)
    (by decide)

/-- **C3, counterexample.**  The endpoints use `Math.round`, not floor:
with 2 of 3 questions answered the context, sessions and answer endpoints
all report 67, while `floor(100 * 2 / 3) = 66`. -/
theorem progress_not_floor :
    (apiContext storeW "s1").map (fun p => p.percentage) = some 67 ∧
    (apiSessions storeW).map SessionSummary.percentComplete = [67] ∧
    (apiAnswer storeW1 "s1" "q2" "Node" 50).1 = HttpAnswerResult.ok 2 3 67 false ∧
    100 * 2 / 3 = 66 := by
  decide

set_option maxRecDepth 8192 in
set_option maxHeartbeats 4000000 in
/-- **C3, amended.**  The progress percentage reported by the HTTP
context, sessions and answer endpoints is `Math.round((A/T)·100)`
computed in binary64 double arithmetic, where `A` is the answered count
and `T` the question count — not `floor(100·A/T)`.  For every
`A ≤ T < 40` this coincides with the exact nearest-integer rounding with
ties up (so 1 of 5 → 20, 2 of 3 → 67, 1 of 3 → 33), but not universally:
at 23 of 40 the double quotient falls just below 57.5, the code reports
57, and exact ties-up rounding gives 58. -/
theorem progress_percentage_round :
    (∀ st sid s, getSession st sid = some s →
      ∃ p, apiContext st sid = some p ∧
        p.answered = s.responses.length ∧ p.total = s.questions.length ∧
        p.percentage = jsRound100 s.responses.length s.questions.length) ∧
    (∀ st e, e ∈ apiSessions st →
      e.percentComplete = jsRound100 e.questionsAnswered e.questionsTotal) ∧
    (∀ st sid qid ans now a t pct c st',
      apiAnswer st sid qid ans now = (HttpAnswerResult.ok a t pct c, st') →
      pct = jsRound100 a t) ∧
    (∀ t < 40, ∀ a < t + 1, jsRound100 a t = exactRound100 a t) ∧
    (jsRound100 23 40 = 57 ∧ exactRound100 23 40 = 58) := by
  refine ⟨fun st sid s hs => ?_, fun st e he => ?_,
    fun st sid qid ans now a t pct c st' heq => ?_, by decide, by decide⟩
  · have hs' : alGet st.sessions sid = some s := hs
    have hlen : (jsObjectOrder s.responses).length = s.responses.length :=
      (jsObjectOrder_perm s.responses).length_eq
    refine ⟨{ context := contextOf s
              answered := (contextOf s).responses.length
              total := (contextOf s).questions.length
              percentage := jsRound100 (contextOf s).responses.length
                (contextOf s).questions.length }, ?_, ?_, rfl, ?_⟩
    · simp [apiContext, getTaskContext, hs']
    · show (jsObjectOrder s.responses).length = s.responses.length
      exact hlen
    · show jsRound100 (jsObjectOrder s.responses).length s.questions.length = _
      rw [hlen]
  · rcases List.mem_map.mp he with ⟨ctx, _, hctx⟩
    rw [← hctx]
  · unfold apiAnswer at heq
    split at heq
    · exact absurd heq (by simp)
    · split at heq
      · split at heq
        · rw [Prod.mk.injEq, HttpAnswerResult.ok.injEq] at heq
          obtain ⟨⟨ha, hb, hc, _⟩, _⟩ := heq
          subst ha; subst hb; subst hc
          rfl
        · exact absurd heq (by simp)
      · exact absurd heq (by simp)

theorem progress_percentage_round_witness :
    (∃ p, apiContext storeW "s1" = some p ∧
      p.answered = sessionW.responses.length ∧ p.total = sessionW.questions.length ∧
      p.percentage = jsRound100 sessionW.responses.length sessionW.questions.length) ∧
    (67 : Nat) = jsRound100 2 3 :=
  ⟨progress_percentage_round.1 storeW "s1" sessionW (by decide),
   progress_percentage_round.2.2.1 storeW1 "s1" "q2" "Node" 50 2 3 67 false
     (apiAnswer storeW1 "s1" "q2" "Node" 50).2 (by decide)⟩

end MCPSpec
